import Mathlib

/-!
Verification of the text-storage and coordinate-mapping core of this editor
repository: Buffer/Anchor resolution, MultiBuffer excerpt composition,
SelectionSet operations, the DisplayMap fold mapping, the `Runtime::run`
action, and the `AssertionContextManager` test helper.

The Buffer, Anchor, MultiBuffer, SelectionSet and DisplayMap components are
not shipped in this repository snapshot (only their test harness
`crates/editor/src/test/editor_test_context.rs`, the action declarations and
callers are), so those components are modelled from the specification text.
`Runtime::run` (`crates/runtimes/src/runtimes.rs`) and
`AssertionContextManager` / `ContextHandle`
(`crates/editor/src/test/editor_test_context.rs`) are embedded from the
source directly.
-/

namespace Spec2Proof

/-! ## Buffer and Anchor (modelled from the spec) -/

/-- Modelled from the spec: the insertion bias of an `Anchor`
("stick-to-left vs stick-to-right when text is inserted exactly at the
anchor's location"). The Buffer component is missing from the sources. -/
inductive Bias where
  | before
  | after
deriving DecidableEq

/-- Modelled from the spec: a `Buffer` owns `content` (an ordered sequence of
characters), a monotonically increasing `revision`, and an `edit_history`
log of `(revision, set of (old_range, new_text))` tuples. The Buffer
component is missing from the sources. -/
structure Buffer where
  content : List Char
  revision : Nat
  edit_history : List (Nat × List (Nat × Nat × List Char))
deriving DecidableEq

/-- Modelled from the spec: the error taxonomy entry `InvalidRange`
(malformed or out-of-bounds edit input). -/
inductive EditError where
  | InvalidRange
deriving DecidableEq

/-- Modelled from the spec: an edit batch is valid when its `(s, e)` old
ranges are given in ascending order, are pairwise disjoint
(each starts at or after the previous end, tracked by `lo`) and lie within
the content bounds `n`. -/
def validEditsFrom (lo n : Nat) : List (Nat × Nat × List Char) → Bool
  | [] => true
  | (s, e, _) :: rest => lo ≤ s && s ≤ e && e ≤ n && validEditsFrom e n rest

/-- Modelled from the spec: apply an ascending, disjoint batch of
`(old_range, new_text)` replacements to the suffix of the content starting
at absolute offset `base`, in one step. -/
def applyEditsFrom : Nat → List Char → List (Nat × Nat × List Char) → List Char
  | _, c, [] => c
  | base, c, (s, e, t) :: rest =>
      c.take (s - base) ++ t ++ applyEditsFrom e (c.drop (e - base)) rest

/-- Modelled from the spec: apply an ascending, disjoint batch of
`(old_range, new_text)` replacements to the content atomically. -/
def applyEditsAsc (c : List Char) (edits : List (Nat × Nat × List Char)) : List Char :=
  applyEditsFrom 0 c edits

/-- Modelled from the spec: `edit(ranges_and_replacements) -> revision`
applies a batch of non-overlapping replacements atomically; ranges are
validated disjoint and within bounds, else it fails with `InvalidRange`;
it returns the new revision number and appends an entry to `edit_history`. -/
def Buffer.edit (b : Buffer) (edits : List (Nat × Nat × List Char)) :
    Except EditError (Buffer × Nat) :=
  if validEditsFrom 0 b.content.length edits then
    .ok ({ content := applyEditsAsc b.content edits,
           revision := b.revision + 1,
           edit_history := b.edit_history ++ [(b.revision + 1, edits)] },
         b.revision + 1)
  else
    .error .InvalidRange

/-- Modelled from the spec: the rejected-before-mutation reading of `edit`:
on failure the Buffer is left unchanged, on success the edited buffer is
adopted. -/
def Buffer.editOrKeep (b : Buffer) (edits : List (Nat × Nat × List Char)) : Buffer :=
  match b.edit edits with
  | .ok (b', _) => b'
  | .error _ => b

/-- Modelled from the spec: an `Anchor` stores
`offset_at_creation_revision` and a `bias`, plus the creation revision. -/
structure Anchor where
  offset : Nat
  bias : Bias
  revision : Nat
deriving DecidableEq

/-- Modelled from the spec: resolve a running anchor offset `a` through one
edit batch (old ranges ascending and disjoint), with `ins`/`del` the
character counts inserted and deleted by the part of the batch lying before
`a`. An anchor strictly before a replaced range is unmoved; one at or
inside a replaced range collapses per bias (before the new text or after
it); one past the range shifts by the batch's length delta. -/
def resolveBatchAux (bias : Bias) (a : Nat) :
    List (Nat × Nat × List Char) → Nat → Nat → Nat
  | [], ins, del => a + ins - del
  | (s, e, t) :: rest, ins, del =>
      if a < s then a + ins - del
      else if a ≤ e then
        match bias with
        | .before => s + ins - del
        | .after => s + t.length + ins - del
      else resolveBatchAux bias a rest (ins + t.length) (del + (e - s))

/-- Modelled from the spec: resolve an anchor offset through one recorded
edit batch, applying bias rules at each insertion or deletion touching it. -/
def resolveBatch (bias : Bias) (edits : List (Nat × Nat × List Char)) (a : Nat) : Nat :=
  resolveBatchAux bias a edits 0 0

/-- Modelled from the spec: `resolve_anchor(anchor, target_revision)` replays
edit_history between the anchor's creation revision and the target revision. -/
def Buffer.resolve_anchor (b : Buffer) (anch : Anchor) (target : Nat) : Nat :=
  (b.edit_history.filter fun h => anch.revision < h.1 && h.1 ≤ target).foldl
    (fun a h => resolveBatch anch.bias h.2 a) anch.offset

/-- Modelled from the spec: `anchor_before(offset)` constructs an Anchor at
the current revision with before bias. -/
def Buffer.anchor_before (b : Buffer) (o : Nat) : Anchor :=
  ⟨o, .before, b.revision⟩

/-- Modelled from the spec: `anchor_after(offset)` constructs an Anchor at
the current revision with after bias. -/
def Buffer.anchor_after (b : Buffer) (o : Nat) : Anchor :=
  ⟨o, .after, b.revision⟩

/-- The Scenario A buffer holding `"hello world"` at revision 0. -/
def helloBuffer : Buffer :=
  ⟨"hello world".toList, 0, []⟩

/-- Modelled from the spec: propositional reading of edit-batch validity —
old ranges ascending from `lo`, pairwise disjoint, within bounds `n`. -/
def EditsValid (n : Nat) : Nat → List (Nat × Nat × List Char) → Prop
  | _, [] => True
  | lo, (s, e, _) :: rest => lo ≤ s ∧ s ≤ e ∧ e ≤ n ∧ EditsValid n e rest

/-- Total characters inserted by an edit batch. -/
def editsInserted (edits : List (Nat × Nat × List Char)) : Nat :=
  (edits.map fun r => r.2.2.length).sum

/-- Total characters deleted by an edit batch. -/
def editsDeleted (edits : List (Nat × Nat × List Char)) : Nat :=
  (edits.map fun r => r.2.1 - r.1).sum

theorem validEditsFrom_iff (n : Nat) :
    ∀ (lo : Nat) (edits : List (Nat × Nat × List Char)),
      validEditsFrom lo n edits = true ↔ EditsValid n lo edits := by
  intro lo edits
  induction edits generalizing lo with
  | nil => simp [validEditsFrom, EditsValid]
  | cons hd tl ih =>
      obtain ⟨s, e, t⟩ := hd
      simp [validEditsFrom, EditsValid, ih, and_assoc]

instance instEditsValidDecidable (n lo : Nat) (edits : List (Nat × Nat × List Char)) :
    Decidable (EditsValid n lo edits) :=
  decidable_of_iff _ (validEditsFrom_iff n lo edits)

theorem applyEditsFrom_length (edits : List (Nat × Nat × List Char)) :
    ∀ (base : Nat) (c : List Char),
      EditsValid (base + c.length) base edits →
      (applyEditsFrom base c edits).length + editsDeleted edits =
        c.length + editsInserted edits := by
  induction edits with
  | nil => intro base c _; simp [applyEditsFrom, editsDeleted, editsInserted]
  | cons hd tl ih =>
      intro base c h
      obtain ⟨s, e, t⟩ := hd
      obtain ⟨hlos, hse, hen, hrest⟩ := h
      have hdrop : (c.drop (e - base)).length = c.length - (e - base) := by
        simp
      have hrest' : EditsValid (e + (c.drop (e - base)).length) e tl := by
        rw [hdrop]
        have : e + (c.length - (e - base)) = base + c.length := by omega
        rw [this]; exact hrest
      have := ih e (c.drop (e - base)) hrest'
      simp only [applyEditsFrom, editsDeleted, editsInserted, List.map_cons,
        List.sum_cons, List.length_append, List.length_take] at *
      omega

/-- C1: For a Buffer containing "hello world", applying `edit([(5..5, ",")])`
succeeds and yields content "hello, world" at revision 1, and an Anchor
created with after bias at offset 5 before that edit resolves to offset 6
against the post-edit revision. -/
theorem c1_hello_edit_and_anchor :
    ∃ b' : Buffer,
      helloBuffer.edit [(5, 5, ",".toList)] = .ok (b', 1) ∧
      b'.content = "hello, world".toList ∧
      b'.resolve_anchor (helloBuffer.anchor_after 5) 1 = 6 :=
  ⟨_, rfl, rfl, rfl⟩

/-- C8: For every edit batch whose ranges are out of bounds or overlapping,
`Buffer.edit` fails with `InvalidRange` before mutation and the Buffer's
content, revision and edit_history are left unchanged; for every valid
batch of disjoint in-bounds ranges, `edit` applies them atomically (the new
content is the one-step application of the whole batch, with the expected
length change) and returns the new revision number. -/
theorem c8_edit_validation (b : Buffer) (edits : List (Nat × Nat × List Char)) :
    (¬ EditsValid b.content.length 0 edits →
        b.edit edits = .error .InvalidRange ∧ b.editOrKeep edits = b) ∧
    (EditsValid b.content.length 0 edits →
        ∃ b', b.edit edits = .ok (b', b.revision + 1) ∧
          b'.content = applyEditsAsc b.content edits ∧
          b'.content.length + editsDeleted edits =
            b.content.length + editsInserted edits ∧
          b'.revision = b.revision + 1 ∧
          b'.edit_history = b.edit_history ++ [(b.revision + 1, edits)]) := by
  constructor
  · intro h
    have hv : validEditsFrom 0 b.content.length edits = false := by
      rcases Bool.eq_false_or_eq_true (validEditsFrom 0 b.content.length edits) with ht | hf
      · exact absurd ((validEditsFrom_iff _ _ _).mp ht) h
      · exact hf
    constructor
    · simp [Buffer.edit, hv]
    · simp [Buffer.editOrKeep, Buffer.edit, hv]
  · intro h
    have hv : validEditsFrom 0 b.content.length edits = true :=
      (validEditsFrom_iff _ _ _).mpr h
    refine ⟨{ content := applyEditsAsc b.content edits,
              revision := b.revision + 1,
              edit_history := b.edit_history ++ [(b.revision + 1, edits)] },
            ?_, rfl, ?_, rfl, rfl⟩
    · simp [Buffer.edit, hv]
    · have h' : EditsValid (0 + b.content.length) 0 edits := by
        simpa using h
      simpa [applyEditsAsc] using applyEditsFrom_length edits 0 b.content h'

/-- Witness for C8: a concrete overlapping batch on the Scenario A buffer is
rejected with `InvalidRange` leaving the buffer unchanged, and a concrete
valid batch succeeds with revision 1. -/
theorem c8_edit_validation_witness :
    (helloBuffer.edit [(3, 6, []), (4, 7, [])] = .error .InvalidRange ∧
      helloBuffer.editOrKeep [(3, 6, []), (4, 7, [])] = helloBuffer) ∧
    ∃ b', helloBuffer.edit [(0, 5, "H".toList)] = .ok (b', 1) ∧
      b'.content = applyEditsAsc helloBuffer.content [(0, 5, "H".toList)] ∧
      b'.content.length + editsDeleted [(0, 5, "H".toList)] =
        helloBuffer.content.length + editsInserted [(0, 5, "H".toList)] ∧
      b'.revision = 1 ∧
      b'.edit_history = helloBuffer.edit_history ++ [(1, [(0, 5, "H".toList)])] :=
  ⟨(c8_edit_validation helloBuffer [(3, 6, []), (4, 7, [])]).1 (by decide),
    (c8_edit_validation helloBuffer [(0, 5, "H".toList)]).2 (by decide)⟩

/-! ## MultiBuffer and Excerpt (modelled from the spec) -/

/-- Modelled from the spec: an `Excerpt` is a sub-range of one Buffer,
identified by `buffer_id`, starting at buffer offset `lo` and `len`
characters long (its context range). The MultiBuffer component is missing
from the sources. -/
structure Excerpt where
  buffer_id : Nat
  lo : Nat
  len : Nat
deriving DecidableEq

/-- Modelled from the spec: a `MultiBuffer` is an ordered sequence of
Excerpts presented as one contiguous logical text stream, with a synthetic
boundary marker `sep` between consecutive excerpts. The MultiBuffer
component is missing from the sources. -/
structure MultiBuffer where
  sep : List Char
  excerpts : List Excerpt
deriving DecidableEq

/-- Modelled from the spec: the MultiBuffer offset of excerpt `i`'s first
character — the cumulative length of all preceding excerpts plus the
boundary markers before it. -/
def excerptStart (mb : MultiBuffer) (i : Nat) : Nat :=
  ((mb.excerpts.take i).map fun ex => ex.len + mb.sep.length).sum

/-- Modelled from the spec: translate a MultiBuffer offset into the
underlying `(buffer_id, buffer_offset)` pair of the excerpt the offset
falls within (`none` inside a boundary marker or past the end). -/
def locateAux (bnd : Nat) : List Excerpt → Nat → Option (Nat × Nat)
  | [], _ => none
  | ex :: rest, o =>
      if o < ex.len then some (ex.buffer_id, ex.lo + o)
      else if o < ex.len + bnd then none
      else locateAux bnd rest (o - (ex.len + bnd))

/-- Modelled from the spec: the offset-to-(buffer, local-offset) translation
of the MultiBuffer snapshot. -/
def MultiBuffer.locate (mb : MultiBuffer) (o : Nat) : Option (Nat × Nat) :=
  locateAux mb.sep.length mb.excerpts o

/-- Modelled from the spec: `edit` through the MultiBuffer locates the
excerpt the offset falls within, translates to the underlying Buffer's
offset space and forwards to that Buffer's `edit` (here an insertion of
`t` at the located position). -/
def MultiBuffer.forwardInsert (mb : MultiBuffer) (buffers : Nat → Buffer)
    (o : Nat) (t : List Char) : Option (Nat × Except EditError (Buffer × Nat)) :=
  mb.locate o |>.map fun p => (p.1, (buffers p.1).edit [(p.2, p.2, t)])

/-- Modelled from the spec: `as_singleton` exposes the single underlying
Buffer of a MultiBuffer that has exactly one excerpt. -/
def MultiBuffer.as_singleton (mb : MultiBuffer) : Option Nat :=
  match mb.excerpts with
  | [ex] => some ex.buffer_id
  | _ => none

/-- Modelled from the spec: the composed read-only text of the MultiBuffer
snapshot — each excerpt's slice of its underlying buffer, joined by the
boundary marker. -/
def MultiBuffer.text (mb : MultiBuffer) (buffers : Nat → Buffer) : List Char :=
  List.intercalate mb.sep
    (mb.excerpts.map fun ex =>
      (((buffers ex.buffer_id).content).drop ex.lo).take ex.len)

/-- The Scenario B MultiBuffer: two excerpts from distinct buffers (ids 0
and 1), lengths 10 and 20, with empty boundary markers. -/
def scenarioBMultiBuffer : MultiBuffer :=
  ⟨[], [⟨0, 0, 10⟩, ⟨1, 0, 20⟩]⟩

theorem locateAux_start (bnd : Nat) :
    ∀ (exs : List Excerpt) (i : Nat) (ex : Excerpt),
      (∀ e ∈ exs, 0 < e.len) →
      exs.get? i = some ex →
      locateAux bnd exs (((exs.take i).map fun e => e.len + bnd).sum) =
        some (ex.buffer_id, ex.lo) := by
  intro exs
  induction exs with
  | nil => intro i ex _ hget; simp at hget
  | cons hd tl ih =>
      intro i ex hpos hget
      cases i with
      | zero =>
          simp only [List.get?_cons_zero, Option.some_inj] at hget
          have hl : 0 < hd.len := hpos hd (by simp)
          simp [locateAux, hl, hget]
          intro h0
          rw [hget] at hl
          omega
      | succ j =>
          simp only [List.get?_cons_succ] at hget
          have hp := hpos hd (by simp)
          have := ih j ex (fun e he => hpos e (by simp [he])) hget
          simp only [List.take_succ_cons, List.map_cons, List.sum_cons, locateAux]
          have h1 : ¬ (hd.len + bnd + ((tl.take j).map fun e => e.len + bnd).sum < hd.len) := by
            omega
          have h2 : ¬ (hd.len + bnd + ((tl.take j).map fun e => e.len + bnd).sum < hd.len + bnd) := by
            omega
          rw [if_neg h1, if_neg h2]
          have h3 : hd.len + bnd + ((tl.take j).map fun e => e.len + bnd).sum - (hd.len + bnd) =
              ((tl.take j).map fun e => e.len + bnd).sum := by omega
          rw [h3]
          exact this

/-- C3: in general, the MultiBuffer offset of each excerpt's first character
equals the cumulative length of all preceding excerpts plus boundary
markers — the translation table maps that offset to the excerpt's first
underlying-buffer position; and in the Scenario B MultiBuffer (excerpt
lengths 10 and 20, distinct buffers), an edit at MultiBuffer offset 15 is
forwarded to the second excerpt's underlying buffer (id 1) as an edit at
local offset 5. -/
theorem c3_multibuffer_offsets (mb : MultiBuffer) (i : Nat) (ex : Excerpt)
    (hpos : ∀ e ∈ mb.excerpts, 0 < e.len)
    (hget : mb.excerpts.get? i = some ex) :
    mb.locate (excerptStart mb i) = some (ex.buffer_id, ex.lo) ∧
    (∀ (buffers : Nat → Buffer) (t : List Char),
      scenarioBMultiBuffer.forwardInsert buffers 15 t =
        some (1, (buffers 1).edit [(5, 5, t)])) := by
  constructor
  · exact locateAux_start mb.sep.length mb.excerpts i ex hpos hget
  · intro buffers t
    have hloc : scenarioBMultiBuffer.locate 15 = some (1, 5) := by decide
    simp [MultiBuffer.forwardInsert, hloc]

/-- Witness for C3: in the Scenario B MultiBuffer the second excerpt's first
character sits at MultiBuffer offset 10 and maps to buffer 1, offset 0. -/
theorem c3_multibuffer_offsets_witness :
    scenarioBMultiBuffer.locate (excerptStart scenarioBMultiBuffer 1) = some (1, 0) :=
  (c3_multibuffer_offsets scenarioBMultiBuffer 1 ⟨1, 0, 20⟩
    (by decide) (by decide)).1

/-! ## SelectionSet (modelled from the spec) -/

/-- Modelled from the spec: one selection — an id (insertion order
significant for "newest" semantics), an offset range with `startOff ≤
endOff`, and a `reversed` flag indicating the head is at the range start.
The SelectionSet component is missing from the sources. -/
structure Selection where
  id : Nat
  startOff : Nat
  endOff : Nat
  reversed : Bool
deriving DecidableEq

/-- Modelled from the spec: a `SelectionSet` maps selection ids to ranges;
`next_id` is the id the next created selection receives. The SelectionSet
component is missing from the sources. -/
structure SelectionSet where
  selections : List Selection
  next_id : Nat
deriving DecidableEq

/-- Modelled from the spec: build one selection from a directed offset
range, normalising so `startOff ≤ endOff` and recording the direction in
`reversed`. -/
def mkSelection (id : Nat) (r : Nat × Nat) : Selection :=
  if r.2 < r.1 then ⟨id, r.2, r.1, true⟩ else ⟨id, r.1, r.2, false⟩

/-- Modelled from the spec: `select_ranges(ranges)` replaces the entire set
with freshly created selections, one per given range, assigning ids in the
order the ranges were given. -/
def SelectionSet.select_ranges (ss : SelectionSet) (ranges : List (Nat × Nat)) :
    SelectionSet :=
  { selections := ranges.enum.map fun p => mkSelection (ss.next_id + p.1) p.2,
    next_id := ss.next_id + ranges.length }

/-- Reading the selections back as directed offset ranges, the way
`EditorTestContext::editor_selections` does: a reversed selection reads as
`end..start`, the others as `start..end`. -/
def SelectionSet.ranges (ss : SelectionSet) : List (Nat × Nat) :=
  ss.selections.map fun s =>
    if s.reversed then (s.endOff, s.startOff) else (s.startOff, s.endOff)

/-- Modelled from the spec: the id of the newest (highest-id) selection. -/
def SelectionSet.newestId (ss : SelectionSet) : Nat :=
  (ss.selections.map Selection.id).foldl max 0

/-- Modelled from the spec: add a range to the set; when `replace_newest`
is requested the newest selection's range is replaced in place rather than
appended, otherwise a fresh selection is appended. -/
def SelectionSet.add_range (ss : SelectionSet) (replace_newest : Bool)
    (r : Nat × Nat) : SelectionSet :=
  if replace_newest then
    { ss with selections :=
        ss.selections.map fun s =>
          if s.id = ss.newestId then mkSelection s.id r else s }
  else
    { selections := ss.selections ++ [mkSelection ss.next_id r],
      next_id := ss.next_id + 1 }

theorem mkSelection_readback (id : Nat) (r : Nat × Nat) :
    (if (mkSelection id r).reversed
      then ((mkSelection id r).endOff, (mkSelection id r).startOff)
      else ((mkSelection id r).startOff, (mkSelection id r).endOff)) = r := by
  by_cases h : r.2 < r.1 <;> simp [mkSelection, h]

theorem mkSelection_id (id : Nat) (r : Nat × Nat) : (mkSelection id r).id = id := by
  by_cases h : r.2 < r.1 <;> simp [mkSelection, h]

/-- C5: `select_ranges(ranges)` replaces the entire SelectionSet with
freshly created selections — the result is independent of the previous
selections — one selection per given range, with ids assigned consecutively
in the order the ranges were given, and reading the selections back yields
exactly the given ranges. -/
theorem c5_select_ranges (ss : SelectionSet) (ranges : List (Nat × Nat)) :
    (ss.select_ranges ranges).ranges = ranges ∧
    (ss.select_ranges ranges).selections.length = ranges.length ∧
    (ss.select_ranges ranges).selections.map Selection.id =
      (List.range ranges.length).map (fun i => ss.next_id + i) ∧
    (∀ other : SelectionSet, other.next_id = ss.next_id →
      other.select_ranges ranges = ss.select_ranges ranges) := by
  refine ⟨?_, ?_, ?_, ?_⟩
  · simp only [SelectionSet.ranges, SelectionSet.select_ranges, List.map_map]
    have : ∀ p : Nat × Nat × Nat,
        (fun s : Selection =>
          if s.reversed then (s.endOff, s.startOff) else (s.startOff, s.endOff))
          (mkSelection (ss.next_id + p.1) p.2) = p.2 := by
      intro p; exact mkSelection_readback _ _
    calc (ranges.enum.map fun p =>
            (fun s : Selection =>
              if s.reversed then (s.endOff, s.startOff) else (s.startOff, s.endOff))
              (mkSelection (ss.next_id + p.1) p.2))
        = ranges.enum.map Prod.snd := by
          apply List.map_congr_left
          intro p _
          exact mkSelection_readback _ _
      _ = ranges := List.enum_map_snd ranges
  · simp [SelectionSet.select_ranges]
  · have h1 : (ss.select_ranges ranges).selections.map Selection.id =
        ranges.enum.map fun p => ss.next_id + p.1 := by
      simp only [SelectionSet.select_ranges, List.map_map]
      apply List.map_congr_left
      intro p _
      exact mkSelection_id _ _
    rw [h1, ← List.enum_map_fst ranges, List.map_map]
    rfl
  · intro other h
    simp [SelectionSet.select_ranges, h]

/-- C6: with `replace_newest=true` the newest selection's range is replaced
in place rather than appended, so the selection count stays stable for
every SelectionSet; in particular on the set with ranges `[(0,3)]` and new
range `(5,8)` the result is exactly one selection `(5,8)`. -/
theorem c6_replace_newest (ss : SelectionSet) (r : Nat × Nat) :
    (ss.add_range true r).selections.length = ss.selections.length ∧
    ((SelectionSet.mk [mkSelection 0 (0, 3)] 1).add_range true (5, 8)).ranges
      = [(5, 8)] := by
  constructor
  · simp [SelectionSet.add_range]
  · decide

/-! ## change_selections transactions (modelled from the spec) -/

/-- Modelled from the spec: the selection-changed notification carrying the
prior and the final selection set (the final set diffed against the prior
set). The notification machinery is missing from the sources. -/
inductive SelEvent where
  | selectionsChanged (prior final : SelectionSet)
deriving DecidableEq

/-- Modelled from the spec: the state of one `change_selections`
transaction: the prior set, the current working set, the mutator's pending
primitive mutation steps, and the notifications emitted so far. -/
structure TxnState where
  prior : SelectionSet
  current : SelectionSet
  pending : List (SelectionSet → SelectionSet)
  events : List SelEvent

/-- Modelled from the spec: one small step of a `change_selections`
transaction. While mutation steps are pending, the next one is applied and
no notification is emitted; once the mutator completes, a single
selection-changed notification with the final set diffed against the prior
set is emitted. -/
def txnStep (st : TxnState) : TxnState :=
  match st.pending with
  | f :: rest => { st with current := f st.current, pending := rest }
  | [] => { st with events := st.events ++ [.selectionsChanged st.prior st.current] }

/-- Modelled from the spec: the result of running the whole mutator. -/
def applySteps (ss : SelectionSet) (steps : List (SelectionSet → SelectionSet)) :
    SelectionSet :=
  steps.foldl (fun s f => f s) ss

/-- The initial transaction state for `change_selections`. -/
def txnInit (ss : SelectionSet) (steps : List (SelectionSet → SelectionSet)) :
    TxnState :=
  ⟨ss, ss, steps, []⟩

theorem txnStep_iterate (steps : List (SelectionSet → SelectionSet)) :
    ∀ (k : Nat) (prior cur : SelectionSet) (evs : List SelEvent), k ≤ steps.length →
      txnStep^[k] ⟨prior, cur, steps, evs⟩ =
        ⟨prior, applySteps cur (steps.take k), steps.drop k, evs⟩ := by
  induction steps with
  | nil =>
      intro k prior cur evs hk
      have : k = 0 := by simpa using hk
      subst this
      simp [applySteps]
  | cons f rest ih =>
      intro k prior cur evs hk
      cases k with
      | zero => simp [applySteps]
      | succ j =>
          rw [Function.iterate_succ_apply]
          have hj : j ≤ rest.length := by simpa using hk
          calc txnStep^[j] (txnStep ⟨prior, cur, f :: rest, evs⟩)
              = txnStep^[j] ⟨prior, f cur, rest, evs⟩ := by rfl
            _ = ⟨prior, applySteps (f cur) (rest.take j), rest.drop j, evs⟩ := ih j prior (f cur) evs hj
            _ = ⟨prior, applySteps cur ((f :: rest).take (j + 1)),
                  (f :: rest).drop (j + 1), evs⟩ := by simp [applySteps]

/-- C7: every `change_selections` transaction is atomic from an observer's
viewpoint: while the mutator's steps are still running (any number `k` of
steps with `k ≤ steps.length`) no selection-changed notification has been
emitted, and once the mutator completes exactly one selection-changed
notification is emitted, carrying the final set (the result of all steps)
diffed against the prior set. -/
theorem c7_change_selections_atomic (ss : SelectionSet)
    (steps : List (SelectionSet → SelectionSet)) (k : Nat)
    (hk : k ≤ steps.length) :
    (txnStep^[k] (txnInit ss steps)).events = [] ∧
    (txnStep^[steps.length + 1] (txnInit ss steps)).events =
      [.selectionsChanged ss (applySteps ss steps)] := by
  constructor
  · rw [txnInit, txnStep_iterate steps k ss ss [] hk]
  · rw [txnInit, Function.iterate_succ_apply',
      txnStep_iterate steps steps.length ss ss [] (Nat.le_refl _)]
    simp [txnStep, applySteps]

/-- Witness for C7: a two-step mutator that first selects `[(0,2)]` and then
selects `[(4,6)]` emits nothing after the first step and exactly one final
notification. -/
theorem c7_change_selections_atomic_witness :
    (txnStep^[1] (txnInit ⟨[], 0⟩
        [fun s => s.select_ranges [(0, 2)], fun s => s.select_ranges [(4, 6)]])).events = [] ∧
    (txnStep^[3] (txnInit ⟨[], 0⟩
        [fun s => s.select_ranges [(0, 2)], fun s => s.select_ranges [(4, 6)]])).events =
      [.selectionsChanged ⟨[], 0⟩
        (applySteps ⟨[], 0⟩
          [fun s => s.select_ranges [(0, 2)], fun s => s.select_ranges [(4, 6)]])] :=
  c7_change_selections_atomic ⟨[], 0⟩
    [fun s => s.select_ranges [(0, 2)], fun s => s.select_ranges [(4, 6)]] 1
    (by decide)

/-! ## Runtime::run (embedded from crates/runtimes/src/runtimes.rs) -/

/-- The newest selection of a set: the selection with the highest id (the
most recently created one), with an empty default when the set is empty. -/
def SelectionSet.newestD (ss : SelectionSet) : Selection :=
  ss.selections.foldl (fun m s => if m.id ≤ s.id then s else m) ⟨0, 0, 0, false⟩

/-- `Selection::range()`: the selection's offset range `start..end`. -/
def Selection.rangeOf (s : Selection) : Nat × Nat :=
  (s.startOff, s.endOff)

/-- `snapshot.text_for_range(range)`: the slice of the buffer content
covered by the offset range. -/
def textForRange (c : List Char) (r : Nat × Nat) : List Char :=
  (c.drop r.1).take (r.2 - r.1)

/-- The part of an `Editor` that `Runtime::run` reads: its buffer snapshot
content and its selections. -/
structure EditorModel where
  content : List Char
  selections : SelectionSet

/-- A workspace item; `item.act_as::<Editor>(cx)` yields the editor view
when the item can act as one. -/
structure ItemModel where
  act_as_editor : Option EditorModel

/-- The part of a `Workspace` that `Runtime::run` reads: its active item,
if any. -/
structure WorkspaceModel where
  active_item : Option ItemModel

/-- `Runtime::run` from `crates/runtimes/src/runtimes.rs`: take the active
item, try to act as an Editor; from the editor take the newest selection's
range and the buffer snapshot, and collect the text for that range; print
the snippet when one was produced. Returns the (unchanged) workspace and
the printed snippet, if any. -/
def Runtime.run (w : WorkspaceModel) : WorkspaceModel × Option (List Char) :=
  let code_snippet :=
    (w.active_item.bind fun item => item.act_as_editor).bind fun editor =>
      let range := editor.selections.newestD.rangeOf
      let selected_text := textForRange editor.content range
      some selected_text
  (w, code_snippet)

/-- C9: `Runtime::run` prints a code snippet if and only if the workspace's
active item can act as an Editor; when it does, the printed snippet equals
the buffer text of the newest selection's range; and the function mutates
neither the buffer nor the selections (the workspace state is returned
unchanged). -/
theorem c9_runtime_run (w : WorkspaceModel) :
    (Runtime.run w).1 = w ∧
    ((Runtime.run w).2.isSome ↔ (w.active_item.bind ItemModel.act_as_editor).isSome) ∧
    (∀ ed, w.active_item.bind ItemModel.act_as_editor = some ed →
      (Runtime.run w).2 =
        some (textForRange ed.content ed.selections.newestD.rangeOf)) := by
  refine ⟨rfl, ?_, ?_⟩
  · cases h' : w.active_item with
    | none => simp [Runtime.run, h']
    | some item =>
        cases h'' : item.act_as_editor with
        | none => simp [Runtime.run, h', h'']
        | some ed => simp [Runtime.run, h', h'']
  · intro ed hed
    have h : w.active_item.bind (fun item => item.act_as_editor) = some ed := by
      cases h' : w.active_item with
      | none => simp [h'] at hed
      | some item =>
          simp only [h', Option.bind_some] at hed ⊢
          exact hed
    simp [Runtime.run, h]

/-- Witness for C9: a concrete workspace whose active editor holds
"let x = 1" with newest selection (4,5) prints "x". -/
theorem c9_runtime_run_witness :
    (Runtime.run ⟨some ⟨some ⟨"let x = 1".toList, ⟨[mkSelection 0 (4, 5)], 1⟩⟩⟩⟩).2 =
      some "x".toList :=
  (c9_runtime_run ⟨some ⟨some ⟨"let x = 1".toList, ⟨[mkSelection 0 (4, 5)], 1⟩⟩⟩⟩).2.2
    ⟨"let x = 1".toList, ⟨[mkSelection 0 (4, 5)], 1⟩⟩ rfl

/-! ## AssertionContextManager (embedded from editor_test_context.rs) -/

/-- The `BTreeMap::insert` of the context map, on an association list kept
sorted by key: place the new key at its ordered position, replacing an
equal key. -/
def btreeInsert (k : Nat) (v : String) : List (Nat × String) → List (Nat × String)
  | [] => [(k, v)]
  | (q, w) :: rest =>
      if k < q then (k, v) :: (q, w) :: rest
      else if k = q then (k, v) :: rest
      else (q, w) :: btreeInsert k v rest

/-- The `BTreeMap::remove` of the context map: delete the entry with the
given key, if present. -/
def btreeRemove (k : Nat) : List (Nat × String) → List (Nat × String)
  | [] => []
  | (q, w) :: rest => if k = q then rest else (q, w) :: btreeRemove k rest

/-- `AssertionContextManager` from `editor_test_context.rs`: an atomic
counter `next_id` (the `AtomicUsize`) and the shared `BTreeMap` of contexts,
modelled as a key-sorted association list. -/
structure AssertionContextManager where
  next_id : Nat
  contexts : List (Nat × String)
deriving DecidableEq

/-- `AssertionContextManager::add_context`: fetch-and-add the id counter,
insert the context under the fetched id, and hand back the handle's id. -/
def AssertionContextManager.add_context (m : AssertionContextManager) (ctx : String) :
    AssertionContextManager × Nat :=
  ({ next_id := m.next_id + 1, contexts := btreeInsert m.next_id ctx m.contexts },
   m.next_id)

/-- `ContextHandle::drop`: remove the entry with the handle's id from the
manager's map. -/
def dropContextHandle (m : AssertionContextManager) (id : Nat) :
    AssertionContextManager :=
  { m with contexts := btreeRemove id m.contexts }

/-- `AssertionContextManager::context`: the stored contexts joined with
newlines (a `BTreeMap` iterates its values in ascending key order),
wrapped in a leading and trailing newline. -/
def AssertionContextManager.context (m : AssertionContextManager) : String :=
  "\n" ++ String.intercalate "\n" (m.contexts.map Prod.snd) ++ "\n"

theorem btreeInsert_append (k : Nat) (v : String) :
    ∀ l : List (Nat × String), (∀ p ∈ l, p.1 < k) → btreeInsert k v l = l ++ [(k, v)] := by
  intro l
  induction l with
  | nil => intro _; rfl
  | cons hd tl ih =>
      intro h
      obtain ⟨q, w⟩ := hd
      have hq : q < k := h (q, w) (by simp)
      simp only [btreeInsert]
      rw [if_neg (by omega), if_neg (by omega), ih fun p hp => h p (by simp [hp])]
      simp

theorem btreeRemove_eq_filter (k : Nat) :
    ∀ l : List (Nat × String),
      List.Pairwise (fun a b : Nat × String => a.1 < b.1) l →
      btreeRemove k l = l.filter fun p => p.1 != k := by
  intro l
  induction l with
  | nil => intro _; rfl
  | cons hd tl ih =>
      intro h
      obtain ⟨q, w⟩ := hd
      rw [List.pairwise_cons] at h
      by_cases hk : k = q
      · subst hk
        have hrest : List.filter (fun p : Nat × String => p.1 != k) tl = tl := by
          rw [List.filter_eq_self]
          intro p hp
          have hlt := h.1 p hp
          simp only [bne_iff_ne, ne_eq]
          omega
        simp [btreeRemove, List.filter_cons, hrest]
      · simp only [btreeRemove, if_neg hk, List.filter_cons]
        have htrue : ((q, w).1 != k) = true := by
          simp only [bne_iff_ne, ne_eq]
          omega
        rw [htrue]
        simp only [if_true]
        rw [ih h.2]

/-- C10: `add_context` assigns a fresh id strictly greater than every
previously assigned id (given that stored ids are below the counter, which
fetch-and-add maintains) and inserts exactly one entry, appended at the
ascending end of the map; sortedness and the counter bound are preserved;
dropping a `ContextHandle` removes only the entry with that handle's id
(dropping the fresh handle restores the previous map exactly, and in
general drop equals filtering out that single id), and `context()` joins
the remaining contexts in ascending id order. -/
theorem c10_assertion_context_manager (m : AssertionContextManager)
    (ctx : String) (id0 : Nat)
    (hbelow : ∀ p ∈ m.contexts, p.1 < m.next_id)
    (hsorted : List.Pairwise (fun a b : Nat × String => a.1 < b.1) m.contexts) :
    (m.add_context ctx).2 = m.next_id ∧
    (∀ p ∈ m.contexts, p.1 < (m.add_context ctx).2) ∧
    (m.add_context ctx).1.contexts = m.contexts ++ [(m.next_id, ctx)] ∧
    (m.add_context ctx).1.contexts.length = m.contexts.length + 1 ∧
    List.Pairwise (fun a b : Nat × String => a.1 < b.1) (m.add_context ctx).1.contexts ∧
    (∀ p ∈ (m.add_context ctx).1.contexts, p.1 < (m.add_context ctx).1.next_id) ∧
    (dropContextHandle (m.add_context ctx).1 (m.add_context ctx).2).contexts = m.contexts ∧
    (dropContextHandle m id0).contexts = m.contexts.filter (fun p => p.1 != id0) ∧
    (m.add_context ctx).1.context =
      "\n" ++ String.intercalate "\n"
        ((m.contexts ++ [(m.next_id, ctx)]).map Prod.snd) ++ "\n" := by
  have happ : btreeInsert m.next_id ctx m.contexts = m.contexts ++ [(m.next_id, ctx)] :=
    btreeInsert_append m.next_id ctx m.contexts hbelow
  have hpair : List.Pairwise (fun a b : Nat × String => a.1 < b.1)
      (m.contexts ++ [(m.next_id, ctx)]) := by
    rw [List.pairwise_append]
    exact ⟨hsorted, by simp, by intro a ha b hb; simp at hb; rw [hb]; exact hbelow a ha⟩
  refine ⟨rfl, fun p hp => hbelow p hp, ?_, ?_, ?_, ?_, ?_, ?_, ?_⟩
  · simpa [AssertionContextManager.add_context] using happ
  · simp [AssertionContextManager.add_context, happ]
  · simpa [AssertionContextManager.add_context, happ] using hpair
  · intro p hp
    simp only [AssertionContextManager.add_context, happ] at hp ⊢
    rcases List.mem_append.mp hp with h | h
    · have := hbelow p h; omega
    · simp at h
      subst h
      simp
  · simp only [AssertionContextManager.add_context, dropContextHandle, happ]
    rw [btreeRemove_eq_filter m.next_id _ hpair, List.filter_append]
    have h1 : m.contexts.filter (fun p => p.1 != m.next_id) = m.contexts := by
      rw [List.filter_eq_self]
      intro p hp
      have := hbelow p hp
      simp only [bne_iff_ne, ne_eq]
      omega
    have h2 : [(m.next_id, ctx)].filter (fun p : Nat × String => p.1 != m.next_id) = [] := by
      simp
    rw [h1, h2, List.append_nil]
  · simp only [dropContextHandle]
    exact btreeRemove_eq_filter id0 m.contexts hsorted
  · simp [AssertionContextManager.context, AssertionContextManager.add_context, happ]

/-- Witness for C10: the manager holding contexts "a" (id 0) and "b" (id 1)
with counter 2, adding "c" and then dropping the new handle. -/
theorem c10_assertion_context_manager_witness :
    ((AssertionContextManager.mk 2 [(0, "a"), (1, "b")]).add_context "c").1.contexts =
      [(0, "a"), (1, "b")] ++ [(2, "c")] ∧
    (dropContextHandle ((AssertionContextManager.mk 2 [(0, "a"), (1, "b")]).add_context "c").1
        ((AssertionContextManager.mk 2 [(0, "a"), (1, "b")]).add_context "c").2).contexts =
      [(0, "a"), (1, "b")] :=
  ⟨(c10_assertion_context_manager ⟨2, [(0, "a"), (1, "b")]⟩ "c" 0
      (by decide) (by decide)).2.2.1,
    (c10_assertion_context_manager ⟨2, [(0, "a"), (1, "b")]⟩ "c" 0
      (by decide) (by decide)).2.2.2.2.2.2.1⟩

/-! ## DisplayMap (modelled from the spec) -/

/-- Modelled from the spec: position `p` is hidden by a fold — it lies in a
folded range and is not the fold's last position (the fold's whole range
counts as a single display column, accounted at its last position). The
DisplayMap component is missing from the sources. -/
def hiddenAt (folds : List (Nat × Nat)) (p : Nat) : Bool :=
  folds.any fun f => f.1 ≤ p && p + 1 < f.2

/-- Modelled from the spec: position `p` lies in a folded range. -/
def inFold (folds : List (Nat × Nat)) (p : Nat) : Bool :=
  folds.any fun f => f.1 ≤ p && p < f.2

/-- Modelled from the spec: offset `o` lies strictly inside a fold (it is
neither the fold's start boundary nor its end boundary). -/
def insideFold (folds : List (Nat × Nat)) (o : Nat) : Bool :=
  folds.any fun f => f.1 < o && o < f.2

/-- Modelled from the spec: offsets inside a fold collapse to the fold's
start offset; other offsets are unchanged. -/
def foldStart (folds : List (Nat × Nat)) (o : Nat) : Nat :=
  match folds.find? fun f => f.1 < o && o < f.2 with
  | some f => f.1
  | none => o

/-- Modelled from the spec: advance the display position `d` over the
character `c` at buffer position `p`: positions hidden by a fold contribute
nothing, a fold's last position contributes the fold's single display
column, a newline outside folds starts a new row, and any other character
advances the column. -/
def dispStep (folds : List (Nat × Nat)) (p : Nat) (c : Char) (d : Nat × Nat) : Nat × Nat :=
  if hiddenAt folds p then d
  else if inFold folds p then (d.1, d.2 + 1)
  else if c = '\n' then (d.1 + 1, 0)
  else (d.1, d.2 + 1)

/-- Modelled from the spec: the display `(row, column)` reached after
walking the buffer structure over the first `p` characters, skipping over
folded ranges. -/
def dispAt (text : List Char) (folds : List (Nat × Nat)) : Nat → Nat × Nat
  | 0 => (0, 0)
  | p + 1 => dispStep folds p (text.getD p ' ') (dispAt text folds p)

/-- Modelled from the spec: `offset_to_display(offset) -> (row, column)` —
offsets inside a fold display at the fold's start. -/
def offset_to_display (text : List Char) (folds : List (Nat × Nat)) (o : Nat) : Nat × Nat :=
  dispAt text folds (foldStart folds o)

/-- Lexicographic order on display `(row, column)` positions. -/
def dpLe (a b : Nat × Nat) : Prop :=
  a.1 < b.1 ∨ (a.1 = b.1 ∧ a.2 ≤ b.2)

/-- Strict lexicographic order on display positions. -/
def dpLt (a b : Nat × Nat) : Prop :=
  a.1 < b.1 ∨ (a.1 = b.1 ∧ a.2 < b.2)

instance instDpLeDecidable (a b : Nat × Nat) : Decidable (dpLe a b) := by
  unfold dpLe; infer_instance

instance instDpLtDecidable (a b : Nat × Nat) : Decidable (dpLt a b) := by
  unfold dpLt; infer_instance

/-- The least index at or after `i`, within `fuel` steps, satisfying `f`
(`i + fuel` when none does). -/
def findFrom (f : Nat → Bool) : Nat → Nat → Nat
  | i, 0 => i
  | i, fuel + 1 => if f i then i else findFrom f (i + 1) fuel

/-- Modelled from the spec: `display_to_offset(row, column) -> offset` —
the nearest valid offset whose display position reaches the requested one,
clamped to the end of the text. -/
def display_to_offset (text : List Char) (folds : List (Nat × Nat)) (d : Nat × Nat) : Nat :=
  findFrom (fun o => decide (dpLe d (dispAt text folds o))) 0 text.length

/-- Modelled from the spec: a well-formed fold set for content length `n` —
folds are listed in ascending order starting at or after `lo`, are nonempty,
pairwise disjoint and within bounds. -/
def foldsWF (n : Nat) : Nat → List (Nat × Nat) → Prop
  | _, [] => True
  | lo, f :: rest => lo ≤ f.1 ∧ f.1 < f.2 ∧ f.2 ≤ n ∧ foldsWF n f.2 rest

theorem dpLe_refl (a : Nat × Nat) : dpLe a a := by
  unfold dpLe; omega

theorem dpLe_of_dpLt (a b : Nat × Nat) (h : dpLt a b) : dpLe a b := by
  unfold dpLt at h; unfold dpLe; omega

theorem dpLe_dpLt_trans (a b c : Nat × Nat) (h1 : dpLe a b) (h2 : dpLt b c) : dpLt a c := by
  unfold dpLe at h1; unfold dpLt at h2 ⊢; omega

theorem not_dpLe_of_dpLt (a b : Nat × Nat) (h : dpLt a b) : ¬ dpLe b a := by
  unfold dpLt at h; unfold dpLe; omega

theorem findFrom_eq (f : Nat → Bool) :
    ∀ (fuel i k : Nat), i ≤ k → k ≤ i + fuel →
      (∀ j, i ≤ j → j < k → f j = false) →
      (k < i + fuel → f k = true) →
      findFrom f i fuel = k := by
  intro fuel
  induction fuel with
  | zero =>
      intro i k h1 h2 _ _
      have : i = k := by omega
      simp [findFrom, this]
  | succ m ih =>
      intro i k h1 h2 hbelow hk
      by_cases hik : i = k
      · subst hik
        have : f i = true := hk (by omega)
        simp [findFrom, this]
      · have hfi : f i = false := hbelow i (Nat.le_refl i) (by omega)
        simp only [findFrom, hfi, Bool.false_eq_true, if_false]
        exact ih (i + 1) k (by omega) (by omega)
          (fun j hj1 hj2 => hbelow j (by omega) hj2)
          (fun hlt => hk (by omega))

theorem dpLe_dispStep (folds : List (Nat × Nat)) (p : Nat) (c : Char) (d : Nat × Nat) :
    dpLe d (dispStep folds p c d) := by
  unfold dispStep
  by_cases h1 : hiddenAt folds p
  · simp [h1, dpLe_refl]
  · by_cases h2 : inFold folds p
    · simp only [h1, Bool.false_eq_true, if_false, h2, if_true]
      unfold dpLe; omega
    · by_cases h3 : c = '\n'
      · simp only [h1, Bool.false_eq_true, if_false, h2, h3, if_true]
        unfold dpLe; omega
      · simp only [h1, Bool.false_eq_true, if_false, h2, h3, if_false]
        unfold dpLe; omega

theorem dpLt_dispStep (folds : List (Nat × Nat)) (p : Nat) (c : Char) (d : Nat × Nat)
    (h : hiddenAt folds p = false) :
    dpLt d (dispStep folds p c d) := by
  unfold dispStep
  rw [h]
  simp only [Bool.false_eq_true, if_false]
  by_cases h2 : inFold folds p
  · simp only [h2, if_true]
    unfold dpLt; omega
  · by_cases h3 : c = '\n'
    · simp only [h2, h3, if_true, Bool.false_eq_true, if_false]
      unfold dpLt; omega
    · simp only [h2, h3, Bool.false_eq_true, if_false]
      unfold dpLt; omega

theorem dispAt_mono (text : List Char) (folds : List (Nat × Nat)) :
    ∀ p q : Nat, p ≤ q → dpLe (dispAt text folds p) (dispAt text folds q) := by
  intro p q hpq
  induction q with
  | zero =>
      have : p = 0 := by omega
      simp [this, dpLe_refl]
  | succ m ih =>
      by_cases hpm : p ≤ m
      · have h1 := ih hpm
        have h2 := dpLe_dispStep folds m (text.getD m ' ') (dispAt text folds m)
        show dpLe _ (dispStep folds m (text.getD m ' ') (dispAt text folds m))
        unfold dpLe at h1 h2 ⊢; omega
      · have : p = m + 1 := by omega
        simp [this, dpLe_refl]

theorem dispAt_strict (text : List Char) (folds : List (Nat × Nat)) (p c : Nat)
    (hpc : p < c) (hpred : hiddenAt folds (c - 1) = false) :
    dpLt (dispAt text folds p) (dispAt text folds c) := by
  have hc : c = (c - 1) + 1 := by omega
  have h1 : dpLe (dispAt text folds p) (dispAt text folds (c - 1)) :=
    dispAt_mono text folds p (c - 1) (by omega)
  have h2 : dpLt (dispAt text folds (c - 1)) (dispAt text folds ((c - 1) + 1)) := by
    show dpLt _ (dispStep folds (c - 1) (text.getD (c - 1) ' ') (dispAt text folds (c - 1)))
    exact dpLt_dispStep folds (c - 1) _ _ hpred
  rw [hc]
  exact dpLe_dpLt_trans _ _ _ h1 h2

theorem display_to_offset_dispAt (text : List Char) (folds : List (Nat × Nat)) (c : Nat)
    (hc : c ≤ text.length)
    (hpred : c = 0 ∨ hiddenAt folds (c - 1) = false) :
    display_to_offset text folds (dispAt text folds c) = c := by
  unfold display_to_offset
  apply findFrom_eq _ text.length 0 c (Nat.zero_le c) (by omega)
  · intro j _ hjc
    have hstrict : dpLt (dispAt text folds j) (dispAt text folds c) := by
      rcases hpred with h0 | hpred
      · subst h0
        exact absurd hjc (Nat.not_lt_zero j)
      · exact dispAt_strict text folds j c hjc hpred
    simp only [decide_eq_false_iff_not]
    exact not_dpLe_of_dpLt _ _ hstrict
  · intro _
    simp only [decide_eq_true_eq]
    exact dpLe_refl _

theorem foldsWF_cons (n lo : Nat) (f : Nat × Nat) (rest : List (Nat × Nat)) :
    foldsWF n lo (f :: rest) ↔ lo ≤ f.1 ∧ f.1 < f.2 ∧ f.2 ≤ n ∧ foldsWF n f.2 rest :=
  Iff.rfl

theorem foldsWF_mem (n : Nat) (folds : List (Nat × Nat)) :
    ∀ (lo : Nat), foldsWF n lo folds →
      ∀ f ∈ folds, lo ≤ f.1 ∧ f.1 < f.2 ∧ f.2 ≤ n := by
  induction folds with
  | nil => intro lo _ f hf; simp at hf
  | cons hd tl ih =>
      intro lo h f hf
      rw [foldsWF_cons] at h
      obtain ⟨h1, h2, h3, h4⟩ := h
      rcases List.mem_cons.mp hf with heq | hftl
      · rw [heq]
        exact ⟨h1, h2, h3⟩
      · have hh := ih hd.2 h4 f hftl
        exact ⟨by omega, hh.2.1, hh.2.2⟩

theorem foldsWF_disjoint (n : Nat) (folds : List (Nat × Nat)) :
    ∀ (lo : Nat), foldsWF n lo folds →
      ∀ f ∈ folds, ∀ g ∈ folds, g.1 < f.1 → g.2 ≤ f.1 := by
  induction folds with
  | nil => intro lo _ f hf; simp at hf
  | cons hd tl ih =>
      intro lo h f hf g hg hlt
      rw [foldsWF_cons] at h
      obtain ⟨h1, h2, h3, h4⟩ := h
      rcases List.mem_cons.mp hf with heqf | hftl
      · rcases List.mem_cons.mp hg with heqg | hgtl
        · rw [heqf, heqg] at hlt ⊢
          omega
        · have := foldsWF_mem n tl hd.2 h4 g hgtl
          rw [heqf] at hlt ⊢
          omega
      · rcases List.mem_cons.mp hg with heqg | hgtl
        · have := foldsWF_mem n tl hd.2 h4 f hftl
          rw [heqg] at hlt ⊢
          omega
        · exact ih hd.2 h4 f hftl g hgtl hlt

theorem not_hiddenAt_pred_of_not_inside (folds : List (Nat × Nat)) (o : Nat)
    (hin : insideFold folds o = false) :
    o = 0 ∨ hiddenAt folds (o - 1) = false := by
  by_cases h0 : o = 0
  · exact Or.inl h0
  · right
    rcases Bool.eq_false_or_eq_true (hiddenAt folds (o - 1)) with h | h
    · exfalso
      unfold hiddenAt at h
      rw [List.any_eq_true] at h
      obtain ⟨f, hf, hp⟩ := h
      simp only [Bool.and_eq_true, decide_eq_true_eq] at hp
      have hcontra : insideFold folds o = true := by
        unfold insideFold
        rw [List.any_eq_true]
        refine ⟨f, hf, ?_⟩
        simp only [Bool.and_eq_true, decide_eq_true_eq]
        omega
      rw [hcontra] at hin
      exact Bool.noConfusion hin
    · exact h

theorem not_hiddenAt_pred_of_foldStart (n : Nat) (folds : List (Nat × Nat)) (o : Nat)
    (hwf : foldsWF n 0 folds) (f0 : Nat × Nat)
    (hfind : folds.find? (fun f => f.1 < o && o < f.2) = some f0) :
    f0.1 = 0 ∨ hiddenAt folds (f0.1 - 1) = false := by
  by_cases h0 : f0.1 = 0
  · exact Or.inl h0
  · right
    have hmem : f0 ∈ folds := List.mem_of_find?_eq_some hfind
    have hprop := List.find?_some hfind
    simp only [Bool.and_eq_true, decide_eq_true_eq] at hprop
    rcases Bool.eq_false_or_eq_true (hiddenAt folds (f0.1 - 1)) with h | h
    · exfalso
      unfold hiddenAt at h
      rw [List.any_eq_true] at h
      obtain ⟨g, hg, hp⟩ := h
      simp only [Bool.and_eq_true, decide_eq_true_eq] at hp
      have hdis := foldsWF_disjoint n folds 0 hwf f0 hmem g hg (by omega)
      omega
    · exact h

/-- C2: for every buffer offset `o` that does not lie inside a fold,
`display_to_offset(offset_to_display(o)) = o`; for every offset `o` lying
inside a fold, `display_to_offset(offset_to_display(o))` equals that
fold's start offset. The fold set is well-formed (ascending, disjoint,
nonempty, in bounds) and `o` is a valid offset. -/
theorem c2_display_roundtrip (text : List Char) (folds : List (Nat × Nat)) (o : Nat)
    (hwf : foldsWF text.length 0 folds) (ho : o ≤ text.length) :
    (insideFold folds o = false →
      display_to_offset text folds (offset_to_display text folds o) = o) ∧
    (insideFold folds o = true →
      ∃ f ∈ folds, f.1 < o ∧ o < f.2 ∧
        display_to_offset text folds (offset_to_display text folds o) = f.1) := by
  constructor
  · intro hin
    have hfind : folds.find? (fun f => f.1 < o && o < f.2) = none := by
      rw [List.find?_eq_none]
      intro f hf hcontra
      have htrue : insideFold folds o = true := by
        unfold insideFold
        rw [List.any_eq_true]
        exact ⟨f, hf, hcontra⟩
      rw [htrue] at hin
      exact Bool.noConfusion hin
    have hcol : foldStart folds o = o := by
      unfold foldStart
      rw [hfind]
    unfold offset_to_display
    rw [hcol]
    exact display_to_offset_dispAt text folds o ho
      (not_hiddenAt_pred_of_not_inside folds o hin)
  · intro hin
    unfold insideFold at hin
    rw [List.any_eq_true] at hin
    obtain ⟨fw, hfw, hpw⟩ := hin
    have hex : ∃ f0, folds.find? (fun f => f.1 < o && o < f.2) = some f0 := by
      cases hf : folds.find? (fun f => f.1 < o && o < f.2) with
      | none =>
          rw [List.find?_eq_none] at hf
          exact absurd hpw (hf fw hfw)
      | some f0 => exact ⟨f0, rfl⟩
    obtain ⟨f0, hfind⟩ := hex
    have hmem : f0 ∈ folds := List.mem_of_find?_eq_some hfind
    have hprop := List.find?_some hfind
    simp only [Bool.and_eq_true, decide_eq_true_eq] at hprop
    refine ⟨f0, hmem, hprop.1, hprop.2, ?_⟩
    have hcol : foldStart folds o = f0.1 := by
      unfold foldStart
      rw [hfind]
    unfold offset_to_display
    rw [hcol]
    have hbound := foldsWF_mem text.length folds 0 hwf f0 hmem
    exact display_to_offset_dispAt text folds f0.1 (by omega)
      (not_hiddenAt_pred_of_foldStart text.length folds o hwf f0 hfind)

/-- Witness for C2: with text "abc\ndefgh" and the single fold `(1, 8)`,
offset 8 (not inside the fold) round-trips to itself and offset 4 (inside
the fold) collapses to the fold's start offset 1. -/
theorem c2_display_roundtrip_witness :
    display_to_offset "abc\ndefgh".toList [(1, 8)]
      (offset_to_display "abc\ndefgh".toList [(1, 8)] 8) = 8 ∧
    (∃ f ∈ [((1 : Nat), (8 : Nat))], f.1 < 4 ∧ 4 < f.2 ∧
      display_to_offset "abc\ndefgh".toList [(1, 8)]
        (offset_to_display "abc\ndefgh".toList [(1, 8)] 4) = f.1) :=
  ⟨(c2_display_roundtrip "abc\ndefgh".toList [(1, 8)] 8
      ((foldsWF_cons _ _ _ _).mpr ⟨by omega, by omega, by decide, trivial⟩)
      (by decide)).1 (by decide),
    (c2_display_roundtrip "abc\ndefgh".toList [(1, 8)] 4
      ((foldsWF_cons _ _ _ _).mpr ⟨by omega, by omega, by decide, trivial⟩)
      (by decide)).2 (by decide)⟩

/-- C4: a MultiBuffer with exactly one excerpt spanning an entire Buffer is
a pass-through single-buffer view: `as_singleton` returns that Buffer, and
the MultiBuffer snapshot's text equals the underlying Buffer's text — for
every state (hence every revision) of the underlying buffer. -/
theorem c4_singleton_passthrough (buffers : Nat → Buffer) (bid : Nat) (sep : List Char) :
    (MultiBuffer.mk sep [⟨bid, 0, (buffers bid).content.length⟩]).as_singleton = some bid ∧
    (MultiBuffer.mk sep [⟨bid, 0, (buffers bid).content.length⟩]).text buffers =
      (buffers bid).content := by
  constructor
  · rfl
  · simp [MultiBuffer.text, List.intercalate]

end Spec2Proof
